import Mathlib

/-!
Verification development for the zerocache in-memory cache server.

The definitions below are a shallow embedding of the Go sources:
the sharded LRU cache (internal/cache), the binary protocol codec
(internal/server/protocol.go) and the command dispatcher
(internal/server/server.go, executeCommand).

Modelling conventions:
  - Go byte strings (keys and values) are lists of naturals;
  - the Go map from key to cacheEntry is an association list whose key
    set is kept duplicate-free by the shard invariant; map update,
    deletion and lookup are the corresponding association-list
    operations;
  - the container/list recency list is a list of keys, front first;
  - Go uint64 arithmetic is natural-number arithmetic reduced mod 2^64;
  - fallible operations return Except.
-/

namespace Zerocache

/-- Command tag constants from pkg/protocol. -/
def CmdSet : Nat := 1

/-- Command tag for GET. -/
def CmdGet : Nat := 2

/-- Command tag for DEL. -/
def CmdDel : Nat := 3

/-- Response tag for OK. -/
def RespOK : Nat := 1

/-- Response tag for ERROR. -/
def RespError : Nat := 2

/-- Response tag for VALUE. -/
def RespValue : Nat := 3

/-- Response tag for NOT_FOUND. -/
def RespNotFound : Nat := 4

/-- Maximum key size in bytes (pkg/protocol MaxKeySize). -/
def MaxKeySize : Nat := 1028

/-- Maximum value size in bytes (pkg/protocol MaxValueSize, 64 * 1028). -/
def MaxValueSize : Nat := 64 * 1028

/-- Keys are opaque byte strings (Go string). -/
abbrev Key := List Nat

/-- Values are opaque byte strings (Go slice of bytes). -/
abbrev Value := List Nat

/-- Association-list lookup, modelling Go map read (shard.items of key). -/
def lookupA : List (Key × Value) → Key → Option Value
  | [], _ => none
  | (a, b) :: m, k => if a = k then some b else lookupA m k

/-- Association-list in-place update, modelling the Go assignment
entry.value := valueCopy on the entry already bound to the key; under
the shard invariant the key is bound at most once. -/
def updateA : List (Key × Value) → Key → Value → List (Key × Value)
  | [], _, _ => []
  | (a, b) :: m, k, v =>
    if a = k then (k, v) :: updateA m k v else (a, b) :: updateA m k v

/-- Association-list deletion, modelling Go delete(shard.items, key); under
the shard invariant the key is bound at most once, so removing every
binding of the key removes exactly that binding. -/
def eraseA : List (Key × Value) → Key → List (Key × Value)
  | [], _ => []
  | (a, b) :: m, k =>
    if a = k then eraseA m k else (a, b) :: eraseA m k

/-- Key set of the association list modelling the Go map. -/
def keysA (m : List (Key × Value)) : List Key :=
  m.map Prod.fst

/-- One shard: the items map, the recency list (front = most recently
touched, mirroring container/list with PushFront/MoveToFront/Back) and
the capacity bound maxItems (a Go int). -/
structure Shard where
  items : List (Key × Value)
  lruList : List Key
  maxItems : Int

/-- Shard with empty map and empty recency list. -/
def Shard.empty (maxItems : Int) : Shard :=
  { items := [], lruList := [], maxItems := maxItems }

/-- MoveToFront of the key's node in the recency list. -/
def moveToFront (k : Key) (l : List Key) : List Key :=
  k :: l.erase k

/-- Shard.get from internal/cache: on a hit, move the entry's recency
position to the front and return the value (Go returns a fresh copy;
copies are equal as byte strings); on a miss, leave the shard unchanged. -/
def Shard.get (s : Shard) (k : Key) : Option Value × Shard :=
  match lookupA s.items k with
  | some v => (some v, { s with lruList := moveToFront k s.lruList })
  | none => (none, s)

/-- Shard.set from internal/cache: replace and promote when the key is
present; otherwise push the new entry at the front and, when maxItems
is positive and the size now exceeds it, remove the Back element of
the recency list and delete its key from the map. -/
def Shard.set (s : Shard) (k : Key) (v : Value) : Shard :=
  match lookupA s.items k with
  | some _ =>
    { s with items := updateA s.items k v, lruList := moveToFront k s.lruList }
  | none =>
    let lru1 := k :: s.lruList
    let items1 := (k, v) :: s.items
    if 0 < s.maxItems ∧ s.maxItems < (lru1.length : Int) then
      let lruKey := lru1.getLast (List.cons_ne_nil k s.lruList)
      { s with items := eraseA items1 lruKey, lruList := lru1.dropLast }
    else
      { s with items := items1, lruList := lru1 }

/-- Shard.delete (Cache.Delete body) from internal/cache: remove the key
from both the map and the recency list when present, else no-op. -/
def Shard.delete (s : Shard) (k : Key) : Shard :=
  match lookupA s.items k with
  | some _ =>
    { s with items := eraseA s.items k, lruList := s.lruList.erase k }
  | none => s

/-- FNV-1a 64-bit offset basis. -/
def fnvOffsetBasis : Nat := 14695981039346656037

/-- FNV-1a 64-bit prime. -/
def fnvPrime : Nat := 1099511628211

/-- FNV-1a 64-bit hash over the key bytes (hash/fnv New64a), with uint64
overflow made explicit by reduction mod 2^64. -/
def fnv1a64 (bs : List Nat) : Nat :=
  bs.foldl (fun h b => ((h ^^^ b) * fnvPrime) % 2 ^ 64) fnvOffsetBasis

/-- Sharded cache: fixed slice of shards plus the precomputed mask. -/
structure Cache where
  shards : List Shard
  shardMask : Nat
  maxItemsPerShard : Int

/-- Shard index of a key: hash and bitwise AND with the mask. -/
def Cache.shardIndex (c : Cache) (k : Key) : Nat :=
  fnv1a64 k &&& c.shardMask

/-- Shard selected for a key. -/
def Cache.shardFor (c : Cache) (k : Key) : Shard :=
  c.shards.getD (c.shardIndex k) (Shard.empty 0)

/-- Cache.Get: route to the key's shard and run the shard get; the pair
carries the returned value (none on a miss) and the updated cache. -/
def Cache.get (c : Cache) (k : Key) : Option Value × Cache :=
  let i := c.shardIndex k
  let r := (c.shards.getD i (Shard.empty 0)).get k
  (r.1, { c with shards := c.shards.set i r.2 })

/-- Cache.Set: route to the key's shard and run the shard set. -/
def Cache.set (c : Cache) (k : Key) (v : Value) : Cache :=
  let i := c.shardIndex k
  { c with shards := c.shards.set i ((c.shards.getD i (Shard.empty 0)).set k v) }

/-- Cache.Delete: route to the key's shard and run the shard delete. -/
def Cache.delete (c : Cache) (k : Key) : Cache :=
  let i := c.shardIndex k
  { c with shards := c.shards.set i ((c.shards.getD i (Shard.empty 0)).delete k) }

/-- Configuration passed to NewWithConfig (Go ints). -/
structure Config where
  ShardCount : Int
  MaxItemsPerShard : Int

/-- Default shard count used when the configured one is invalid. -/
def defaultShardCount : Nat := 256

/-- Default per-shard capacity used by New. -/
def defaultMaxItemsPerShard : Int := 1024

/-- NewWithConfig from internal/cache: fall back to the default shard
count unless ShardCount is positive with ShardCount AND (ShardCount-1)
zero (the Go power-of-two test); coerce a negative MaxItemsPerShard to 0
(unbounded); allocate every shard eagerly and empty. -/
def NewWithConfig (cfg : Config) : Cache :=
  let sc : Nat :=
    if 0 < cfg.ShardCount ∧ cfg.ShardCount.toNat &&& (cfg.ShardCount.toNat - 1) = 0 then
      cfg.ShardCount.toNat
    else defaultShardCount
  let mi : Int := if cfg.MaxItemsPerShard < 0 then 0 else cfg.MaxItemsPerShard
  { shards := List.replicate sc (Shard.empty mi)
    shardMask := sc - 1
    maxItemsPerShard := mi }

/-- New from internal/cache: the default configuration. -/
def Cache.new : Cache :=
  NewWithConfig { ShardCount := 256, MaxItemsPerShard := defaultMaxItemsPerShard }

/-- Decoded command (internal/server Command struct). -/
structure Command where
  type : Nat
  key : List Nat
  value : List Nat
deriving DecidableEq, Repr

/-- Response (internal/server Response struct). -/
structure Response where
  type : Nat
  value : List Nat
deriving DecidableEq, Repr

/-- Outcomes of ReadCommand. The eof constructor is the io.EOF sentinel
that handleConnection treats as a clean end-of-stream; every other
constructor is one of the wrapped error returns of the Go function. -/
inductive ReadError where
  | eof
  | invalidKeyLength (n : Nat)
  | invalidValueLength (n : Nat)
  | valueWithNonSet (t : Nat)
  | eofInPayload
  | unknownCommand (t : Nat)
deriving DecidableEq, Repr

/-- ReadCommand from internal/server/protocol.go over a finite byte
stream. io.ReadFull of the 9-byte header that ends early - with zero or
with some bytes read - is returned as io.EOF by the Go code, so both
fall to the eof case here. After the header: length validation, the
value-with-GET/DEL check, the payload read (key only for non-SET), key
and value extraction, and the final tag check, in source order. The
result carries the unread remainder of the stream. -/
def readCommand (input : List Nat) : Except ReadError (Command × List Nat) :=
  match input with
  | t :: k3 :: k2 :: k1 :: k0 :: v3 :: v2 :: v1 :: v0 :: rest =>
    let keyLen := k3 * 2 ^ 24 + k2 * 2 ^ 16 + k1 * 2 ^ 8 + k0
    let valLen := v3 * 2 ^ 24 + v2 * 2 ^ 16 + v1 * 2 ^ 8 + v0
    if keyLen = 0 ∨ MaxKeySize < keyLen then
      Except.error (ReadError.invalidKeyLength keyLen)
    else if MaxValueSize < valLen then
      Except.error (ReadError.invalidValueLength valLen)
    else if 0 < valLen ∧ (t = CmdGet ∨ t = CmdDel) then
      Except.error (ReadError.valueWithNonSet t)
    else
      let needed := if t = CmdSet then keyLen + valLen else keyLen
      if rest.length < needed then
        Except.error ReadError.eofInPayload
      else
        let payload := rest.take needed
        let cmd : Command :=
          { type := t
            key := payload.take keyLen
            value := if t = CmdSet then payload.drop keyLen else [] }
        if t = CmdSet ∨ t = CmdGet ∨ t = CmdDel then
          Except.ok (cmd, rest.drop needed)
        else
          Except.error (ReadError.unknownCommand t)
  | _ => Except.error ReadError.eof

/-- Big-endian encoding of a 32-bit length, as written by PutUint32. -/
def be32enc (n : Nat) : List Nat :=
  [n / 2 ^ 24 % 256, n / 2 ^ 16 % 256, n / 2 ^ 8 % 256, n % 256]

/-- Serialised response frame: tag byte, 4-byte big-endian payload
length, payload. -/
def respFrame (t : Nat) (v : List Nat) : List Nat :=
  t :: (be32enc v.length ++ v)

/-- Byte view of an ASCII diagnostic string. -/
def strBytes (s : String) : List Nat :=
  s.data.map Char.toNat

/-- Diagnostic emitted when a response value is oversized. -/
def errMsgOversize : String := "internal: response value exceeds maximum size"

/-- WriteResponse from internal/server/protocol.go. The Go code first
computes valLen := uint32(len(resp.Value)), so both guards run on the
payload length reduced mod 2^32; the wrap is modelled explicitly. An
oversized (wrapped) payload, or a non-zero wrapped length on an OK or
NOT_FOUND tag, is replaced by an ERROR frame and reported as an error
return; otherwise the 5-byte header carries the wrapped length and the
copy into the valLen-sized buffer emits the first valLen payload bytes
(the whole payload whenever its length is below 2^32). The first
component is the byte sequence written to the connection. -/
def writeResponse (resp : Response) : List Nat × Option String :=
  let valLen := resp.value.length % 2 ^ 32
  if MaxValueSize < valLen then
    let raw := strBytes errMsgOversize
    let errMsg := if MaxValueSize < raw.length then raw.take MaxValueSize else raw
    (respFrame RespError errMsg, some "original response value exceeds maximum size")
  else if (resp.type = RespOK ∨ resp.type = RespNotFound) ∧ valLen ≠ 0 then
    let errMsg :=
      strBytes ("internal: unexpected value data with response type " ++ toString resp.type)
    (respFrame RespError errMsg, some "internal server error: tried to send data with OK/NotFound")
  else
    (resp.type :: (be32enc valLen ++ resp.value.take valLen), none)

/-- executeCommand from internal/server/server.go: SET stores and
answers OK, GET answers VALUE with the bytes on a hit and NOT_FOUND on
a miss, DEL deletes and answers OK; an unknown tag is an error. The
second component is the cache after the dispatch. -/
def executeCommand (c : Cache) (cmd : Command) : Except String Response × Cache :=
  if cmd.type = CmdSet then
    (Except.ok { type := RespOK, value := [] }, c.set cmd.key cmd.value)
  else if cmd.type = CmdGet then
    match c.get cmd.key with
    | (some v, c2) => (Except.ok { type := RespValue, value := v }, c2)
    | (none, c2) => (Except.ok { type := RespNotFound, value := [] }, c2)
  else if cmd.type = CmdDel then
    (Except.ok { type := RespOK, value := [] }, c.delete cmd.key)
  else
    (Except.error "unknown command type", c)

/-- Abstract shard operations, for statements about arbitrary finite
operation sequences. -/
inductive ShardOp where
  | setOp (k : Key) (v : Value)
  | getOp (k : Key)
  | delOp (k : Key)

/-- Apply one shard operation (the state effect; get discards the value). -/
def applyOp (s : Shard) : ShardOp → Shard
  | ShardOp.setOp k v => s.set k v
  | ShardOp.getOp k => (s.get k).2
  | ShardOp.delOp k => s.delete k

/-- Apply a finite sequence of shard operations, left to right. -/
def applyOps (s : Shard) (ops : List ShardOp) : Shard :=
  ops.foldl applyOp s

/-- Shard invariant: the recency list and the map key set are
duplicate-free, index the same keys, have the same length, and when
maxItems is positive the size respects the capacity bound. -/
structure ShardWF (s : Shard) : Prop where
  lruNodup : s.lruList.Nodup
  keysNodup : (keysA s.items).Nodup
  memIff : ∀ k, k ∈ keysA s.items ↔ k ∈ s.lruList
  lenEq : s.items.length = s.lruList.length
  sizeBound : 0 < s.maxItems → (s.items.length : Int) ≤ s.maxItems

/-- Cache invariant: the shard slice has power-of-two length, the mask
is length minus one, and every shard satisfies the shard invariant. -/
structure CacheWF (c : Cache) : Prop where
  pow : ∃ k, c.shards.length = 2 ^ k
  mask : c.shardMask + 1 = c.shards.length
  shardsWF : ∀ s ∈ c.shards, ShardWF s

/-- Condition under which Cache.set of key k1 evicts key k2: the shard
routed for k1 does not contain k1, is at positive capacity that the
insertion overflows, and k2 is the Back element removed. -/
def Cache.setEvicts (c : Cache) (k1 k2 : Key) : Bool :=
  let s := c.shardFor k1
  (lookupA s.items k1).isNone && decide (0 < s.maxItems) &&
    decide (s.maxItems < ((k1 :: s.lruList).length : Int)) &&
    ((k1 :: s.lruList).getLast (List.cons_ne_nil k1 s.lruList) == k2)

/-- Classifier for the invalid-length error kind of ReadCommand. -/
def isInvalidLengthError : Except ReadError (Command × List Nat) → Prop
  | Except.error (ReadError.invalidKeyLength _) => True
  | Except.error (ReadError.invalidValueLength _) => True
  | _ => False

/-! Helper lemmas about the association-list map model. -/

theorem keysA_nil : keysA [] = [] := rfl

theorem keysA_cons (a : Key) (b : Value) (m : List (Key × Value)) :
    keysA ((a, b) :: m) = a :: keysA m := rfl

theorem lookupA_none_iff_not_mem (m : List (Key × Value)) (k : Key) :
    lookupA m k = none ↔ k ∉ keysA m := by
  induction m with
  | nil => simp [lookupA, keysA_nil]
  | cons p m ih =>
    obtain ⟨a, b⟩ := p
    rw [keysA_cons]
    by_cases h : a = k
    · subst h
      simp [lookupA]
    · simp [lookupA, h, ih, Ne.symm h]

theorem lookupA_isSome_iff_mem (m : List (Key × Value)) (k : Key) :
    (lookupA m k).isSome = true ↔ k ∈ keysA m := by
  rw [Option.isSome_iff_ne_none]
  constructor
  · intro h
    by_contra hmem
    exact h ((lookupA_none_iff_not_mem m k).mpr hmem)
  · intro h hn
    exact (lookupA_none_iff_not_mem m k).mp hn h

theorem keysA_updateA (m : List (Key × Value)) (k : Key) (v : Value) :
    keysA (updateA m k v) = keysA m := by
  induction m with
  | nil => rfl
  | cons p m ih =>
    obtain ⟨a, b⟩ := p
    by_cases h : a = k
    · subst h
      simp [updateA, keysA_cons, ih]
    · simp [updateA, h, keysA_cons, ih]

theorem lookupA_updateA_self (m : List (Key × Value)) (k : Key) (v : Value)
    (h : lookupA m k ≠ none) : lookupA (updateA m k v) k = some v := by
  induction m with
  | nil => simp [lookupA] at h
  | cons p m ih =>
    obtain ⟨a, b⟩ := p
    by_cases hak : a = k
    · simp [updateA, hak, lookupA]
    · simp only [lookupA, hak, if_false, updateA, if_neg hak] at h ⊢
      simp [lookupA, hak, ih h]

theorem lookupA_updateA_ne (m : List (Key × Value)) (k k' : Key) (v : Value)
    (h : k' ≠ k) : lookupA (updateA m k v) k' = lookupA m k' := by
  induction m with
  | nil => rfl
  | cons p m ih =>
    obtain ⟨a, b⟩ := p
    by_cases hak : a = k
    · have e1 : updateA ((a, b) :: m) k v = (k, v) :: updateA m k v := by
        simp [updateA, hak]
      rw [e1]
      have e2 : lookupA ((k, v) :: updateA m k v) k' = lookupA (updateA m k v) k' := by
        simp only [lookupA]
        rw [if_neg (fun hc => h hc.symm)]
      rw [e2, ih]
      have e3 : lookupA ((a, b) :: m) k' = lookupA m k' := by
        simp only [lookupA]
        rw [if_neg (show a ≠ k' from fun hc => h (by rw [← hc, hak]))]
      rw [e3]
    · simp [updateA, hak, lookupA, ih]

theorem mem_keysA_eraseA (m : List (Key × Value)) (k x : Key) :
    x ∈ keysA (eraseA m k) ↔ x ∈ keysA m ∧ x ≠ k := by
  induction m with
  | nil => simp [eraseA, keysA_nil]
  | cons p m ih =>
    obtain ⟨a, b⟩ := p
    by_cases h : a = k
    · subst h
      simp [eraseA, keysA_cons, ih]
      tauto
    · simp [eraseA, h, keysA_cons, ih]
      constructor
      · rintro (rfl | ⟨h1, h2⟩)
        · exact ⟨Or.inl rfl, h⟩
        · exact ⟨Or.inr h1, h2⟩
      · rintro ⟨rfl | h1, h2⟩
        · exact Or.inl rfl
        · exact Or.inr ⟨h1, h2⟩

theorem keysA_eraseA_sublist (m : List (Key × Value)) (k : Key) :
    (keysA (eraseA m k)).Sublist (keysA m) := by
  induction m with
  | nil => simp [eraseA, keysA_nil]
  | cons p m ih =>
    obtain ⟨a, b⟩ := p
    by_cases h : a = k
    · subst h
      simp only [eraseA, if_pos rfl, keysA_cons]
      exact List.Sublist.cons a ih
    · simp only [eraseA, if_neg h, keysA_cons]
      exact List.Sublist.cons₂ a ih

theorem keysA_eraseA_nodup (m : List (Key × Value)) (k : Key)
    (hnd : (keysA m).Nodup) : (keysA (eraseA m k)).Nodup :=
  List.Nodup.sublist (keysA_eraseA_sublist m k) hnd

theorem lookupA_eraseA_self (m : List (Key × Value)) (k : Key) :
    lookupA (eraseA m k) k = none := by
  rw [lookupA_none_iff_not_mem]
  intro hc
  exact ((mem_keysA_eraseA m k k).mp hc).2 rfl

theorem lookupA_eraseA_ne (m : List (Key × Value)) (k k' : Key) (h : k' ≠ k) :
    lookupA (eraseA m k) k' = lookupA m k' := by
  induction m with
  | nil => rfl
  | cons p m ih =>
    obtain ⟨a, b⟩ := p
    by_cases hak : a = k
    · have e1 : eraseA ((a, b) :: m) k = eraseA m k := by
        simp [eraseA, hak]
      rw [e1, ih]
      have e3 : lookupA ((a, b) :: m) k' = lookupA m k' := by
        simp only [lookupA]
        rw [if_neg (show a ≠ k' from fun hc => h (by rw [← hc, hak]))]
      rw [e3]
    · simp only [eraseA, if_neg hak, lookupA, ih]

theorem eraseA_of_not_mem (m : List (Key × Value)) (k : Key)
    (h : k ∉ keysA m) : eraseA m k = m := by
  induction m with
  | nil => rfl
  | cons p m ih =>
    obtain ⟨a, b⟩ := p
    rw [keysA_cons] at h
    simp only [List.mem_cons, not_or] at h
    have hne : a ≠ k := fun hc => h.1 hc.symm
    have e1 : eraseA ((a, b) :: m) k = (a, b) :: eraseA m k := by
      simp [eraseA, hne]
    rw [e1, ih h.2]

theorem length_keysA (m : List (Key × Value)) : (keysA m).length = m.length :=
  List.length_map m Prod.fst

theorem length_eraseA_of_mem (m : List (Key × Value)) (k : Key)
    (hnd : (keysA m).Nodup) (hmem : k ∈ keysA m) :
    (eraseA m k).length = m.length - 1 := by
  induction m with
  | nil => simp [keysA_nil] at hmem
  | cons p m ih =>
    obtain ⟨a, b⟩ := p
    rw [keysA_cons] at hnd hmem
    by_cases h : a = k
    · subst h
      have hnm : a ∉ keysA m := (List.nodup_cons.mp hnd).1
      have e1 : eraseA ((a, b) :: m) a = eraseA m a := by
        simp [eraseA]
      rw [e1, eraseA_of_not_mem m a hnm, List.length_cons]
      omega
    · have hkm : k ∈ keysA m := by
        rcases List.mem_cons.mp hmem with h1 | h1
        · exact absurd h1.symm h
        · exact h1
      have hlen : 0 < m.length := by
        rw [← length_keysA]
        exact List.length_pos.mpr (List.ne_nil_of_mem hkm)
      have e1 : eraseA ((a, b) :: m) k = (a, b) :: eraseA m k := by
        simp [eraseA, h]
      rw [e1]
      simp only [List.length_cons]
      rw [ih (List.nodup_cons.mp hnd).2 hkm]
      omega

/-! Helper lemmas about the recency list. -/

theorem getLast_not_mem_dropLast (l : List Key) (hnd : l.Nodup) (h : l ≠ []) :
    l.getLast h ∉ l.dropLast := by
  intro hc
  have hnd2 := hnd
  rw [← List.dropLast_append_getLast h] at hnd2
  obtain ⟨_, _, hdisj⟩ := List.nodup_append.mp hnd2
  exact hdisj hc (by simp)

theorem mem_dropLast_iff_of_nodup (l : List Key) (hnd : l.Nodup) (h : l ≠ [])
    (x : Key) : x ∈ l.dropLast ↔ x ∈ l ∧ x ≠ l.getLast h := by
  have hsplit := List.dropLast_append_getLast h
  constructor
  · intro hx
    refine ⟨by rw [← hsplit]; exact List.mem_append_left _ hx, ?_⟩
    intro hx2
    rw [hx2] at hx
    exact getLast_not_mem_dropLast l hnd h hx
  · rintro ⟨hx, hne⟩
    rw [← hsplit] at hx
    rcases List.mem_append.mp hx with h1 | h2
    · exact h1
    · simp at h2
      exact absurd h2 hne

theorem nodup_dropLast (l : List Key) (hnd : l.Nodup) : l.dropLast.Nodup :=
  List.Nodup.sublist (List.dropLast_sublist l) hnd

/-! Well-formedness of the empty shard and preservation by each
operation. -/

theorem shardWF_empty (m : Int) : ShardWF (Shard.empty m) := by
  refine ⟨by simp [Shard.empty], by simp [Shard.empty, keysA_nil], ?_, rfl, ?_⟩
  · intro k
    simp [Shard.empty, keysA_nil]
  · intro h
    simpa [Shard.empty] using le_of_lt h

theorem shard_get_items (s : Shard) (k : Key) : ((s.get k).2).items = s.items := by
  unfold Shard.get
  cases lookupA s.items k <;> rfl

theorem shard_get_maxItems (s : Shard) (k : Key) :
    ((s.get k).2).maxItems = s.maxItems := by
  unfold Shard.get
  cases lookupA s.items k <;> rfl

theorem moveToFront_mem_iff (k x : Key) (l : List Key) (hnd : l.Nodup)
    (hk : k ∈ l) : x ∈ moveToFront k l ↔ x ∈ l := by
  unfold moveToFront
  by_cases hx : x = k
  · simp [hx, hk]
  · simp [hx, List.Nodup.mem_erase_iff hnd]

theorem moveToFront_nodup (k : Key) (l : List Key) (hnd : l.Nodup) :
    (moveToFront k l).Nodup := by
  unfold moveToFront
  exact List.Nodup.cons (List.Nodup.not_mem_erase hnd) (List.Nodup.erase k hnd)

theorem moveToFront_length (k : Key) (l : List Key) (hk : k ∈ l) :
    (moveToFront k l).length = l.length := by
  unfold moveToFront
  simp [List.length_erase_of_mem hk]
  have : 0 < l.length := List.length_pos.mpr (List.ne_nil_of_mem hk)
  omega

theorem shard_get_snd_hit (s : Shard) (k : Key) (v : Value)
    (hl : lookupA s.items k = some v) :
    (s.get k).2 = { s with lruList := moveToFront k s.lruList } := by
  unfold Shard.get
  rw [hl]

theorem shard_get_snd_miss (s : Shard) (k : Key)
    (hl : lookupA s.items k = none) : (s.get k).2 = s := by
  unfold Shard.get
  rw [hl]

theorem shardWF_get (s : Shard) (k : Key) (hwf : ShardWF s) :
    ShardWF ((s.get k).2) := by
  rcases hl : lookupA s.items k with _ | v
  · rw [shard_get_snd_miss s k hl]
    exact hwf
  · rw [shard_get_snd_hit s k v hl]
    have hk : k ∈ s.lruList := by
      rw [← hwf.memIff, ← lookupA_isSome_iff_mem, hl]
      rfl
    exact
      { lruNodup := moveToFront_nodup k s.lruList hwf.lruNodup
        keysNodup := hwf.keysNodup
        memIff := fun x => (hwf.memIff x).trans
          (moveToFront_mem_iff k x s.lruList hwf.lruNodup hk).symm
        lenEq := hwf.lenEq.trans (moveToFront_length k s.lruList hk).symm
        sizeBound := hwf.sizeBound }

theorem length_updateA (m : List (Key × Value)) (k : Key) (v : Value) :
    (updateA m k v).length = m.length := by
  induction m with
  | nil => rfl
  | cons p m ih =>
    obtain ⟨a, b⟩ := p
    by_cases h : a = k <;> simp [updateA, h, ih]

theorem shard_set_update (s : Shard) (k : Key) (v w : Value)
    (hl : lookupA s.items k = some w) :
    s.set k v =
      { s with items := updateA s.items k v, lruList := moveToFront k s.lruList } := by
  unfold Shard.set
  rw [hl]

theorem shard_set_insert (s : Shard) (k : Key) (v : Value)
    (hl : lookupA s.items k = none)
    (hno : ¬(0 < s.maxItems ∧ s.maxItems < ((k :: s.lruList).length : Int))) :
    s.set k v =
      { s with items := (k, v) :: s.items, lruList := k :: s.lruList } := by
  unfold Shard.set
  rw [hl]
  exact if_neg hno

theorem shard_set_evict (s : Shard) (k : Key) (v : Value)
    (hl : lookupA s.items k = none)
    (hov : 0 < s.maxItems ∧ s.maxItems < ((k :: s.lruList).length : Int)) :
    s.set k v =
      { s with
        items := eraseA ((k, v) :: s.items)
          ((k :: s.lruList).getLast (List.cons_ne_nil k s.lruList))
        lruList := (k :: s.lruList).dropLast } := by
  unfold Shard.set
  rw [hl]
  exact if_pos hov

theorem lruList_ne_nil_of_overflow (s : Shard)
    (hov : 0 < s.maxItems ∧ s.maxItems < (((k : Key) :: s.lruList).length : Int)) :
    s.lruList ≠ [] := by
  intro hnil
  rw [hnil] at hov
  simp at hov
  omega

theorem shard_delete_hit (s : Shard) (k : Key) (w : Value)
    (hl : lookupA s.items k = some w) :
    s.delete k = { s with items := eraseA s.items k, lruList := s.lruList.erase k } := by
  unfold Shard.delete
  rw [hl]

theorem shard_delete_miss (s : Shard) (k : Key)
    (hl : lookupA s.items k = none) : s.delete k = s := by
  unfold Shard.delete
  rw [hl]

theorem shard_set_maxItems (s : Shard) (k : Key) (v : Value) :
    (s.set k v).maxItems = s.maxItems := by
  unfold Shard.set
  cases lookupA s.items k
  · by_cases hov : 0 < s.maxItems ∧ s.maxItems < (((k :: s.lruList).length : Nat) : Int)
    · simp only [if_pos hov]
    · simp only [if_neg hov]
  · rfl

theorem shard_delete_maxItems (s : Shard) (k : Key) :
    (s.delete k).maxItems = s.maxItems := by
  unfold Shard.delete
  cases lookupA s.items k <;> rfl

theorem not_mem_of_lookupA_none (s : Shard) (k : Key) (hwf : ShardWF s)
    (hl : lookupA s.items k = none) : k ∉ s.lruList := by
  rw [← hwf.memIff]
  exact (lookupA_none_iff_not_mem s.items k).mp hl

theorem shardWF_set (s : Shard) (k : Key) (v : Value) (hwf : ShardWF s) :
    ShardWF (s.set k v) := by
  rcases hl : lookupA s.items k with _ | w
  · by_cases hov : 0 < s.maxItems ∧ s.maxItems < ((k :: s.lruList).length : Int)
    · -- fresh key, insertion overflows: the Back element is evicted
      rw [shard_set_evict s k v hl hov]
      have hkl : k ∉ s.lruList := not_mem_of_lookupA_none s k hwf hl
      have hkk : k ∉ keysA s.items := (lookupA_none_iff_not_mem s.items k).mp hl
      have hne : s.lruList ≠ [] := lruList_ne_nil_of_overflow s hov
      have htail : (k :: s.lruList).getLast (List.cons_ne_nil k s.lruList) =
          s.lruList.getLast hne := List.getLast_cons hne
      set t := s.lruList.getLast hne with ht
      have htmem : t ∈ s.lruList := List.getLast_mem hne
      have htk : t ≠ k := fun hc => hkl (hc ▸ htmem)
      have htkeys : t ∈ keysA s.items := (hwf.memIff t).mpr htmem
      have hknet : k ≠ t := fun hc => htk hc.symm
      have hitems : eraseA ((k, v) :: s.items)
          ((k :: s.lruList).getLast (List.cons_ne_nil k s.lruList)) =
          (k, v) :: eraseA s.items t := by
        rw [htail]
        simp [eraseA, hknet]
      have hlru : (k :: s.lruList).dropLast = k :: s.lruList.dropLast :=
        List.dropLast_cons_of_ne_nil hne
      have hlen0 : 0 < s.items.length := by
        rw [← length_keysA]
        exact List.length_pos.mpr (List.ne_nil_of_mem htkeys)
      have hlenE : (eraseA s.items t).length = s.items.length - 1 :=
        length_eraseA_of_mem s.items t hwf.keysNodup htkeys
      refine ⟨?_, ?_, ?_, ?_, ?_⟩ <;> simp only [hitems, hlru]
      · refine List.Nodup.cons ?_ (nodup_dropLast s.lruList hwf.lruNodup)
        intro hc
        exact hkl (((mem_dropLast_iff_of_nodup s.lruList hwf.lruNodup hne k).mp hc).1)
      · rw [keysA_cons]
        refine List.Nodup.cons ?_ (keysA_eraseA_nodup s.items t hwf.keysNodup)
        intro hc
        exact hkk ((mem_keysA_eraseA s.items t k).mp hc).1
      · intro x
        rw [keysA_cons]
        by_cases hx : x = k
        · simp [hx]
        · simp only [List.mem_cons, hx, false_or]
          rw [mem_keysA_eraseA, mem_dropLast_iff_of_nodup s.lruList hwf.lruNodup hne,
            hwf.memIff x, ← ht]
      · simp only [List.length_cons, hlenE, List.length_dropLast, hwf.lenEq]
      · intro hpos
        have hb := hwf.sizeBound hpos
        simp only [List.length_cons, hlenE]
        push_cast
        push_cast at hb
        omega
    · -- fresh key, no overflow: plain insertion at the front
      rw [shard_set_insert s k v hl hov]
      have hkl : k ∉ s.lruList := not_mem_of_lookupA_none s k hwf hl
      have hkk : k ∉ keysA s.items := (lookupA_none_iff_not_mem s.items k).mp hl
      refine ⟨List.Nodup.cons hkl hwf.lruNodup, ?_, ?_, ?_, ?_⟩
      · rw [keysA_cons]
        exact List.Nodup.cons hkk hwf.keysNodup
      · intro x
        rw [keysA_cons]
        simp only [List.mem_cons, hwf.memIff x]
      · simp only [keysA_cons, List.length_cons, hwf.lenEq]
      · intro hpos
        have hpos2 : 0 < s.maxItems := hpos
        rw [not_and] at hov
        have h2 := hov hpos2
        show ((((k, v) :: s.items).length : Nat) : Int) ≤ s.maxItems
        simp only [List.length_cons] at h2 ⊢
        simp only [not_lt] at h2
        rw [hwf.lenEq]
        push_cast at h2 ⊢
        omega
  · -- key already present: replace the value and promote
    rw [shard_set_update s k v w hl]
    have hkk : k ∈ keysA s.items := by
      rw [← lookupA_isSome_iff_mem, hl]
      rfl
    have hkl : k ∈ s.lruList := (hwf.memIff k).mp hkk
    refine ⟨?_, ?_, ?_, ?_, ?_⟩
    · exact moveToFront_nodup k s.lruList hwf.lruNodup
    · rw [keysA_updateA]
      exact hwf.keysNodup
    · intro x
      rw [keysA_updateA]
      exact (hwf.memIff x).trans
        (moveToFront_mem_iff k x s.lruList hwf.lruNodup hkl).symm
    · simp only [length_updateA, moveToFront_length k s.lruList hkl, hwf.lenEq]
    · intro hpos
      simpa only [length_updateA] using hwf.sizeBound hpos

theorem shardWF_delete (s : Shard) (k : Key) (hwf : ShardWF s) :
    ShardWF (s.delete k) := by
  rcases hl : lookupA s.items k with _ | w
  · rw [shard_delete_miss s k hl]
    exact hwf
  · rw [shard_delete_hit s k w hl]
    have hkk : k ∈ keysA s.items := by
      rw [← lookupA_isSome_iff_mem, hl]
      rfl
    have hkl : k ∈ s.lruList := (hwf.memIff k).mp hkk
    have hlenE : (eraseA s.items k).length = s.items.length - 1 :=
      length_eraseA_of_mem s.items k hwf.keysNodup hkk
    refine ⟨?_, ?_, ?_, ?_, ?_⟩
    · exact List.Nodup.erase k hwf.lruNodup
    · exact keysA_eraseA_nodup s.items k hwf.keysNodup
    · intro x
      rw [mem_keysA_eraseA, List.Nodup.mem_erase_iff hwf.lruNodup, hwf.memIff x]
      tauto
    · rw [hlenE, List.length_erase_of_mem hkl, hwf.lenEq]
    · intro hpos
      have hb := hwf.sizeBound hpos
      rw [hlenE]
      push_cast
      push_cast at hb
      omega

theorem shardWF_applyOp (s : Shard) (op : ShardOp) (hwf : ShardWF s) :
    ShardWF (applyOp s op) := by
  cases op with
  | setOp k v => exact shardWF_set s k v hwf
  | getOp k => exact shardWF_get s k hwf
  | delOp k => exact shardWF_delete s k hwf

theorem applyOp_maxItems (s : Shard) (op : ShardOp) :
    (applyOp s op).maxItems = s.maxItems := by
  cases op with
  | setOp k v => exact shard_set_maxItems s k v
  | getOp k => exact shard_get_maxItems s k
  | delOp k => exact shard_delete_maxItems s k

theorem shardWF_applyOps (s : Shard) (ops : List ShardOp) (hwf : ShardWF s) :
    ShardWF (applyOps s ops) := by
  induction ops generalizing s with
  | nil => exact hwf
  | cons op ops ih => exact ih (applyOp s op) (shardWF_applyOp s op hwf)

theorem applyOps_maxItems (s : Shard) (ops : List ShardOp) :
    (applyOps s ops).maxItems = s.maxItems := by
  induction ops generalizing s with
  | nil => rfl
  | cons op ops ih => rw [applyOps] at *; simp only [List.foldl_cons]
                      rw [show List.foldl applyOp (applyOp s op) ops = applyOps (applyOp s op) ops from rfl,
                        ih (applyOp s op), applyOp_maxItems]

/-! Lookup behaviour of the shard operations. -/

theorem shard_get_fst (s : Shard) (k : Key) : (s.get k).1 = lookupA s.items k := by
  unfold Shard.get
  cases lookupA s.items k <;> rfl

theorem lookup_shard_set_self (s : Shard) (k : Key) (v : Value) (hwf : ShardWF s) :
    lookupA (s.set k v).items k = some v := by
  rcases hl : lookupA s.items k with _ | w
  · by_cases hov : 0 < s.maxItems ∧ s.maxItems < ((k :: s.lruList).length : Int)
    · rw [shard_set_evict s k v hl hov]
      have hkl : k ∉ s.lruList := not_mem_of_lookupA_none s k hwf hl
      have hne : s.lruList ≠ [] := lruList_ne_nil_of_overflow s hov
      have htail : (k :: s.lruList).getLast (List.cons_ne_nil k s.lruList) =
          s.lruList.getLast hne := List.getLast_cons hne
      have htk : s.lruList.getLast hne ≠ k :=
        fun hc => hkl (hc ▸ List.getLast_mem hne)
      have hknet : k ≠ s.lruList.getLast hne := fun hc => htk hc.symm
      simp only [htail]
      have e1 : eraseA ((k, v) :: s.items) (s.lruList.getLast hne) =
          (k, v) :: eraseA s.items (s.lruList.getLast hne) := by
        simp [eraseA, hknet]
      rw [e1]
      simp [lookupA]
    · rw [shard_set_insert s k v hl hov]
      simp [lookupA]
  · rw [shard_set_update s k v w hl]
    exact lookupA_updateA_self s.items k v (by rw [hl]; exact fun hc => Option.noConfusion hc)

theorem lookup_shard_set_ne (s : Shard) (k k' : Key) (v : Value) (hne : k' ≠ k)
    (hsafe : ¬(lookupA s.items k = none ∧ 0 < s.maxItems ∧
      s.maxItems < ((k :: s.lruList).length : Int) ∧
      (k :: s.lruList).getLast (List.cons_ne_nil k s.lruList) = k')) :
    lookupA (s.set k v).items k' = lookupA s.items k' := by
  rcases hl : lookupA s.items k with _ | w
  · by_cases hov : 0 < s.maxItems ∧ s.maxItems < ((k :: s.lruList).length : Int)
    · rw [shard_set_evict s k v hl hov]
      have htne : (k :: s.lruList).getLast (List.cons_ne_nil k s.lruList) ≠ k' :=
        fun hc => hsafe ⟨hl, hov.1, hov.2, hc⟩
      set t := (k :: s.lruList).getLast (List.cons_ne_nil k s.lruList) with ht
      rw [lookupA_eraseA_ne ((k, v) :: s.items) t k' (fun hc => htne hc.symm)]
      simp only [lookupA]
      rw [if_neg (fun hc => hne hc.symm)]
    · rw [shard_set_insert s k v hl hov]
      simp only [lookupA]
      rw [if_neg (fun hc => hne hc.symm)]
  · rw [shard_set_update s k v w hl]
    exact lookupA_updateA_ne s.items k k' v hne

theorem lookup_shard_delete_ne (s : Shard) (k k' : Key) (hne : k' ≠ k) :
    lookupA (s.delete k).items k' = lookupA s.items k' := by
  rcases hl : lookupA s.items k with _ | w
  · rw [shard_delete_miss s k hl]
  · rw [shard_delete_hit s k w hl]
    exact lookupA_eraseA_ne s.items k k' hne

theorem head_shard_set (s : Shard) (k : Key) (v : Value) :
    (s.set k v).lruList.head? = some k := by
  rcases hl : lookupA s.items k with _ | w
  · by_cases hov : 0 < s.maxItems ∧ s.maxItems < ((k :: s.lruList).length : Int)
    · rw [shard_set_evict s k v hl hov]
      have hne : s.lruList ≠ [] := lruList_ne_nil_of_overflow s hov
      simp only [List.dropLast_cons_of_ne_nil hne]
      rfl
    · rw [shard_set_insert s k v hl hov]
      rfl
  · rw [shard_set_update s k v w hl]
    rfl

/-! Cache-level plumbing: shard selection and the shard-slice update. -/

theorem getD_set_self {α : Type} (l : List α) (i : Nat) (x d : α)
    (h : i < l.length) : (l.set i x).getD i d = x := by
  induction l generalizing i with
  | nil => simp at h
  | cons a l ih =>
    cases i with
    | zero => rfl
    | succ i =>
      simp only [List.set_cons_succ, List.getD_cons_succ]
      exact ih i (by simpa using h)

theorem getD_set_ne {α : Type} (l : List α) (i j : Nat) (x d : α)
    (h : i ≠ j) : (l.set i x).getD j d = l.getD j d := by
  induction l generalizing i j with
  | nil => rfl
  | cons a l ih =>
    cases i with
    | zero =>
      cases j with
      | zero => exact absurd rfl h
      | succ j => rfl
    | succ i =>
      cases j with
      | zero => rfl
      | succ j =>
        simp only [List.set_cons_succ, List.getD_cons_succ]
        exact ih i j (fun hc => h (by rw [hc]))

theorem getD_mem_of_lt {α : Type} (l : List α) (i : Nat) (d : α)
    (h : i < l.length) : l.getD i d ∈ l := by
  induction l generalizing i with
  | nil => simp at h
  | cons a l ih =>
    cases i with
    | zero => exact List.mem_cons_self a l
    | succ i =>
      simp only [List.getD_cons_succ]
      exact List.mem_cons_of_mem a (ih i (by simpa using h))

theorem shardIndex_lt (c : Cache) (hwf : CacheWF c) (k : Key) :
    c.shardIndex k < c.shards.length := by
  obtain ⟨j, hj⟩ := hwf.pow
  have hmask : c.shardMask = 2 ^ j - 1 := by
    have := hwf.mask
    omega
  unfold Cache.shardIndex
  rw [hmask, Nat.and_pow_two_sub_one_eq_mod, hj]
  exact Nat.mod_lt _ (Nat.pos_pow_of_pos j (by omega))

theorem shardFor_WF (c : Cache) (hwf : CacheWF c) (k : Key) :
    ShardWF (c.shardFor k) :=
  hwf.shardsWF _ (getD_mem_of_lt c.shards (c.shardIndex k) (Shard.empty 0)
    (shardIndex_lt c hwf k))

theorem cache_set_shardIndex (c : Cache) (k k' : Key) (v : Value) :
    (c.set k v).shardIndex k' = c.shardIndex k' := rfl

theorem cache_get_shardIndex (c : Cache) (k k' : Key) :
    ((c.get k).2).shardIndex k' = c.shardIndex k' := rfl

theorem cache_delete_shardIndex (c : Cache) (k k' : Key) :
    (c.delete k).shardIndex k' = c.shardIndex k' := rfl

theorem cache_get_fst (c : Cache) (k : Key) :
    (c.get k).1 = lookupA (c.shardFor k).items k := by
  unfold Cache.get Cache.shardFor
  exact shard_get_fst _ k

theorem shardFor_cache_set_self (c : Cache) (hwf : CacheWF c) (k : Key) (v : Value) :
    (c.set k v).shardFor k = (c.shardFor k).set k v := by
  unfold Cache.set Cache.shardFor Cache.shardIndex
  exact getD_set_self c.shards _ _ _ (shardIndex_lt c hwf k)

/-! The Go power-of-two test: for positive n, n AND (n-1) vanishes
exactly when n is a power of two. -/

theorem pow2_of_and_pred : ∀ m : Nat, 0 < m → m &&& (m - 1) = 0 → ∃ k, m = 2 ^ k := by
  intro m
  induction m using Nat.strong_induction_on with
  | _ m ih =>
    intro hm h
    rcases Nat.even_or_odd m with he | ho
    · obtain ⟨a, ha⟩ := he
      have ha0 : 0 < a := by omega
      have hd1 : m / 2 = a := by omega
      have hd2 : (m - 1) / 2 = a - 1 := by omega
      have hband : a &&& (a - 1) = 0 := by
        apply Nat.eq_of_testBit_eq
        intro i
        have h1 : Nat.testBit (m &&& (m - 1)) (i + 1) = false := by
          rw [h]
          exact Nat.zero_testBit _
        rw [Nat.testBit_and, Nat.testBit_add_one, Nat.testBit_add_one, hd1, hd2] at h1
        rw [Nat.testBit_and, Nat.zero_testBit, h1]
      obtain ⟨k, hk⟩ := ih a (by omega) ha0 hband
      refine ⟨k + 1, ?_⟩
      rw [Nat.pow_succ]
      omega
    · obtain ⟨b, hb⟩ := ho
      by_cases hb0 : b = 0
      · exact ⟨0, by omega⟩
      · exfalso
        obtain ⟨i, hbit⟩ := Nat.ne_zero_implies_bit_true (x := b) hb0
        have hd1 : m / 2 = b := by omega
        have hd2 : (m - 1) / 2 = b := by omega
        have h1 : Nat.testBit (m &&& (m - 1)) (i + 1) = true := by
          rw [Nat.testBit_and, Nat.testBit_add_one, Nat.testBit_add_one, hd1, hd2, hbit]
          rfl
        rw [h, Nat.zero_testBit] at h1
        exact Bool.false_ne_true h1

theorem pow_and_pred_eq_zero (k : Nat) : 2 ^ k &&& (2 ^ k - 1) = 0 := by
  apply Nat.eq_of_testBit_eq
  intro i
  rw [Nat.testBit_and, Nat.zero_testBit, Nat.testBit_two_pow, Nat.testBit_two_pow_sub_one]
  by_cases h : k = i
  · subst h
    simp
  · simp [h]

theorem and_pred_eq_zero_iff_pow2 (m : Nat) (hm : 0 < m) :
    m &&& (m - 1) = 0 ↔ ∃ k, m = 2 ^ k := by
  constructor
  · exact pow2_of_and_pred m hm
  · rintro ⟨k, rfl⟩
    exact pow_and_pred_eq_zero k

theorem shardFor_eq_of_index_eq (c : Cache) (k1 k2 : Key)
    (hij : c.shardIndex k1 = c.shardIndex k2) : c.shardFor k1 = c.shardFor k2 := by
  unfold Cache.shardFor
  rw [hij]

theorem shardFor_cache_get_eq (c : Cache) (hwf : CacheWF c) (k1 k2 : Key)
    (hij : c.shardIndex k1 = c.shardIndex k2) :
    ((c.get k1).2).shardFor k2 = ((c.shardFor k1).get k1).2 := by
  have hsh : ((c.get k1).2).shards =
      c.shards.set (c.shardIndex k1) ((c.shardFor k1).get k1).2 := rfl
  have hmask : ((c.get k1).2).shardIndex k2 = c.shardIndex k2 := rfl
  show ((c.get k1).2).shards.getD (((c.get k1).2).shardIndex k2) (Shard.empty 0) =
    ((c.shardFor k1).get k1).2
  rw [hsh, hmask, ← hij]
  exact getD_set_self c.shards _ _ _ (shardIndex_lt c hwf k1)

theorem shardFor_cache_get_ne (c : Cache) (k1 k2 : Key)
    (hij : c.shardIndex k1 ≠ c.shardIndex k2) :
    ((c.get k1).2).shardFor k2 = c.shardFor k2 := by
  unfold Cache.get Cache.shardFor Cache.shardIndex
  exact getD_set_ne c.shards _ _ _ _ hij

theorem shardFor_cache_set_eq (c : Cache) (hwf : CacheWF c) (k1 k2 : Key) (v : Value)
    (hij : c.shardIndex k1 = c.shardIndex k2) :
    (c.set k1 v).shardFor k2 = (c.shardFor k1).set k1 v := by
  have hsh : (c.set k1 v).shards =
      c.shards.set (c.shardIndex k1) ((c.shardFor k1).set k1 v) := rfl
  have hmask : (c.set k1 v).shardIndex k2 = c.shardIndex k2 := rfl
  show (c.set k1 v).shards.getD ((c.set k1 v).shardIndex k2) (Shard.empty 0) =
    (c.shardFor k1).set k1 v
  rw [hsh, hmask, ← hij]
  exact getD_set_self c.shards _ _ _ (shardIndex_lt c hwf k1)

theorem shardFor_cache_set_ne (c : Cache) (k1 k2 : Key) (v : Value)
    (hij : c.shardIndex k1 ≠ c.shardIndex k2) :
    (c.set k1 v).shardFor k2 = c.shardFor k2 := by
  unfold Cache.set Cache.shardFor Cache.shardIndex
  exact getD_set_ne c.shards _ _ _ _ hij

theorem shardFor_cache_delete_eq (c : Cache) (hwf : CacheWF c) (k1 k2 : Key)
    (hij : c.shardIndex k1 = c.shardIndex k2) :
    (c.delete k1).shardFor k2 = (c.shardFor k1).delete k1 := by
  have hsh : (c.delete k1).shards =
      c.shards.set (c.shardIndex k1) ((c.shardFor k1).delete k1) := rfl
  have hmask : (c.delete k1).shardIndex k2 = c.shardIndex k2 := rfl
  show (c.delete k1).shards.getD ((c.delete k1).shardIndex k2) (Shard.empty 0) =
    (c.shardFor k1).delete k1
  rw [hsh, hmask, ← hij]
  exact getD_set_self c.shards _ _ _ (shardIndex_lt c hwf k1)

theorem shardFor_cache_delete_ne (c : Cache) (k1 k2 : Key)
    (hij : c.shardIndex k1 ≠ c.shardIndex k2) :
    (c.delete k1).shardFor k2 = c.shardFor k2 := by
  unfold Cache.delete Cache.shardFor Cache.shardIndex
  exact getD_set_ne c.shards _ _ _ _ hij

/-! Well-formedness of freshly constructed caches. -/

theorem cacheWF_newWithConfig (cfg : Config) : CacheWF (NewWithConfig cfg) := by
  unfold NewWithConfig
  by_cases hv : 0 < cfg.ShardCount ∧
      cfg.ShardCount.toNat &&& (cfg.ShardCount.toNat - 1) = 0
  · simp only [if_pos hv]
    refine ⟨?_, ?_, ?_⟩
    · rw [List.length_replicate]
      exact pow2_of_and_pred cfg.ShardCount.toNat
        (by omega) hv.2
    · rw [List.length_replicate]
      show cfg.ShardCount.toNat - 1 + 1 = cfg.ShardCount.toNat
      have hpos : 0 < cfg.ShardCount := hv.1
      omega
    · intro s hs
      rw [List.eq_of_mem_replicate hs]
      exact shardWF_empty _
  · simp only [if_neg hv]
    refine ⟨?_, ?_, ?_⟩
    · rw [List.length_replicate]
      exact ⟨8, rfl⟩
    · rw [List.length_replicate]
      rfl
    · intro s hs
      rw [List.eq_of_mem_replicate hs]
      exact shardWF_empty _

/-! The cache invariant is preserved by every cache operation. -/

theorem cacheWF_set (c : Cache) (hwf : CacheWF c) (k : Key) (v : Value) :
    CacheWF (c.set k v) := by
  refine ⟨?_, ?_, ?_⟩
  · obtain ⟨j, hj⟩ := hwf.pow
    exact ⟨j, by simpa [Cache.set] using hj⟩
  · have := hwf.mask
    simpa [Cache.set] using this
  · intro s hs
    simp only [Cache.set] at hs
    rcases List.mem_or_eq_of_mem_set hs with h1 | h1
    · exact hwf.shardsWF s h1
    · rw [h1]
      exact shardWF_set _ k v (shardFor_WF c hwf k)

theorem cacheWF_get (c : Cache) (hwf : CacheWF c) (k : Key) :
    CacheWF ((c.get k).2) := by
  refine ⟨?_, ?_, ?_⟩
  · obtain ⟨j, hj⟩ := hwf.pow
    exact ⟨j, by simpa [Cache.get] using hj⟩
  · have := hwf.mask
    simpa [Cache.get] using this
  · intro s hs
    simp only [Cache.get] at hs
    rcases List.mem_or_eq_of_mem_set hs with h1 | h1
    · exact hwf.shardsWF s h1
    · rw [h1]
      exact shardWF_get _ k (shardFor_WF c hwf k)

theorem cacheWF_delete (c : Cache) (hwf : CacheWF c) (k : Key) :
    CacheWF (c.delete k) := by
  refine ⟨?_, ?_, ?_⟩
  · obtain ⟨j, hj⟩ := hwf.pow
    exact ⟨j, by simpa [Cache.delete] using hj⟩
  · have := hwf.mask
    simpa [Cache.delete] using this
  · intro s hs
    simp only [Cache.delete] at hs
    rcases List.mem_or_eq_of_mem_set hs with h1 | h1
    · exact hwf.shardsWF s h1
    · rw [h1]
      exact shardWF_delete _ k (shardFor_WF c hwf k)

/-! Claim theorems. -/

/-- C1: for every key k with 0 < length k and length k at most MaxKeySize
and every value v with length v at most MaxValueSize, a Get of k right
after Set(k, v) on a well-formed cache returns v bit-exact (no other
operation, hence no eviction of k, happens in between; the Set itself
never evicts its own key). -/
theorem C1_set_then_get_roundtrip (c : Cache) (hwf : CacheWF c) (k : Key) (v : Value)
    (hk0 : 0 < k.length) (hkmax : k.length ≤ MaxKeySize)
    (hvmax : v.length ≤ MaxValueSize) :
    ((c.set k v).get k).1 = some v := by
  rw [cache_get_fst, shardFor_cache_set_self c hwf k v]
  exact lookup_shard_set_self _ k v (shardFor_WF c hwf k)

/-- Witness for C1 at a concrete cache, key and value. -/
theorem C1_witness :
    (((NewWithConfig { ShardCount := 4, MaxItemsPerShard := 2 }).set [3] [7, 9]).get [3]).1 =
      some [7, 9] :=
  C1_set_then_get_roundtrip _ (cacheWF_newWithConfig _) [3] [7, 9]
    (by decide) (by decide) (by decide)

/-- C2: on a single shard with maxItems = 2 and distinct keys a, b, c, the
sequence set a, set b, get a, set c leaves exactly keys a and c present:
the get promoted a to the front, so the overflowing set of c evicted the
tail key b. -/
theorem C2_lru_promotion (a b c : Key) (va vb vc : Value)
    (hab : a ≠ b) (hac : a ≠ c) (hbc : b ≠ c) :
    (((((((Shard.empty 2).set a va).set b vb).get a).2).set c vc).get a).1 = some va ∧
    (((((((Shard.empty 2).set a va).set b vb).get a).2).set c vc).get b).1 = none ∧
    (((((((Shard.empty 2).set a va).set b vb).get a).2).set c vc).get c).1 = some vc := by
  have h1 : (Shard.empty 2).set a va =
      { items := [(a, va)], lruList := [a], maxItems := 2 } := by
    rw [shard_set_insert (Shard.empty 2) a va (by rfl) (by norm_num [Shard.empty])]
    rfl
  have hlb : lookupA [(a, va)] b = none := by
    simp [lookupA, hab]
  have h2 : ({ items := [(a, va)], lruList := [a], maxItems := 2 } : Shard).set b vb =
      { items := [(b, vb), (a, va)], lruList := [b, a], maxItems := 2 } := by
    rw [shard_set_insert ({ items := [(a, va)], lruList := [a], maxItems := 2 } : Shard)
      b vb hlb (by norm_num)]
  have hla : lookupA [(b, vb), (a, va)] a = some va := by
    simp [lookupA, Ne.symm hab]
  have h3 : (({ items := [(b, vb), (a, va)], lruList := [b, a], maxItems := 2 } : Shard).get a).2 =
      { items := [(b, vb), (a, va)], lruList := [a, b], maxItems := 2 } := by
    rw [shard_get_snd_hit _ a va hla]
    simp [moveToFront, List.erase_cons, Ne.symm hab]
  have hlc : lookupA [(b, vb), (a, va)] c = none := by
    simp [lookupA, hbc, hac]
  have h4 : ({ items := [(b, vb), (a, va)], lruList := [a, b], maxItems := 2 } : Shard).set c vc =
      { items := [(c, vc), (a, va)], lruList := [c, a], maxItems := 2 } := by
    rw [shard_set_evict ({ items := [(b, vb), (a, va)], lruList := [a, b], maxItems := 2 } : Shard)
      c vc hlc (by norm_num)]
    simp [eraseA, Ne.symm hbc, hab]
  rw [h1, h2, h3, h4]
  refine ⟨?_, ?_, ?_⟩
  · rw [shard_get_fst]
    simp [lookupA, Ne.symm hac]
  · rw [shard_get_fst]
    simp [lookupA, Ne.symm hbc, hab]
  · rw [shard_get_fst]
    simp [lookupA]

/-- Witness for C2 at three concrete distinct keys. -/
theorem C2_witness :
    (((((((Shard.empty 2).set [0] [10]).set [1] [11]).get [0]).2).set [2] [12]).get [0]).1 =
      some [10] ∧
    (((((((Shard.empty 2).set [0] [10]).set [1] [11]).get [0]).2).set [2] [12]).get [1]).1 =
      none ∧
    (((((((Shard.empty 2).set [0] [10]).set [1] [11]).get [0]).2).set [2] [12]).get [2]).1 =
      some [12] :=
  C2_lru_promotion [0] [1] [2] [10] [11] [12] (by decide) (by decide) (by decide)

/-- C10: immediately after Set(k, v), k is present with value v in any
well-formed cache whatever maxItems is, and the just-inserted entry sits
at the front of its shard recency list: the eviction (when it fires)
removes the Back element, never the key just pushed to the front. -/
theorem C10_set_never_evicts_own_key (c : Cache) (hwf : CacheWF c) (k : Key) (v : Value) :
    ((c.set k v).get k).1 = some v ∧
    ((c.set k v).shardFor k).lruList.head? = some k := by
  constructor
  · rw [cache_get_fst, shardFor_cache_set_self c hwf k v]
    exact lookup_shard_set_self _ k v (shardFor_WF c hwf k)
  · rw [show ((c.set k v).shardFor k : Shard) = (c.set k v).shardFor k from rfl,
      shardFor_cache_set_self c hwf k v]
    exact head_shard_set _ k v

/-- Witness for C10 on a full one-shard cache of capacity one: the Set
evicts the resident key, not its own. -/
theorem C10_witness :
    ((((NewWithConfig { ShardCount := 1, MaxItemsPerShard := 1 }).set [1] [7]).set
        [0] [5]).get [0]).1 = some [5] :=
  (C10_set_never_evicts_own_key _
    (cacheWF_set _ (cacheWF_newWithConfig _) [1] [7]) [0] [5]).1

/-- C3: for a shard constructed with maxItems = M > 0, after any finite
sequence of set, get and delete operations the number of entries is at
most M, the map and the recency list index the same key set with equal
lengths, and every overflowing set (fresh key while the shard is at a
size that the insertion pushes past M) removes exactly one entry, the
tail of the recency order: afterwards the size is unchanged and the
recency list is the new key followed by the old list minus its tail. -/
theorem C3_shard_invariants (M : Int) (hM : 0 < M) (ops : List ShardOp) (s : Shard)
    (hs : s = applyOps (Shard.empty M) ops) :
    ((s.items.length : Int) ≤ M ∧
      (∀ x, x ∈ keysA s.items ↔ x ∈ s.lruList) ∧
      s.items.length = s.lruList.length) ∧
    (∀ k v, lookupA s.items k = none → M < ((k :: s.lruList).length : Int) →
      (s.set k v).items.length = s.items.length ∧
      (s.set k v).lruList = k :: s.lruList.dropLast) := by
  have hwf : ShardWF s := hs ▸ shardWF_applyOps (Shard.empty M) ops (shardWF_empty M)
  have hmax : s.maxItems = M := by
    rw [hs, applyOps_maxItems]
    rfl
  refine ⟨⟨?_, hwf.memIff, hwf.lenEq⟩, ?_⟩
  · have hb := hwf.sizeBound (by rw [hmax]; exact hM)
    rwa [hmax] at hb
  · intro k v hl hov2
    have hov : 0 < s.maxItems ∧ s.maxItems < ((k :: s.lruList).length : Int) := by
      rw [hmax]
      exact ⟨hM, hov2⟩
    have hkl : k ∉ s.lruList := not_mem_of_lookupA_none s k hwf hl
    have hne : s.lruList ≠ [] := lruList_ne_nil_of_overflow s hov
    have htail : (k :: s.lruList).getLast (List.cons_ne_nil k s.lruList) =
        s.lruList.getLast hne := List.getLast_cons hne
    have htmem : s.lruList.getLast hne ∈ s.lruList := List.getLast_mem hne
    have htk : s.lruList.getLast hne ≠ k := fun hc => hkl (hc ▸ htmem)
    have htkeys : s.lruList.getLast hne ∈ keysA s.items := (hwf.memIff _).mpr htmem
    have hknet : k ≠ s.lruList.getLast hne := fun hc => htk hc.symm
    have hItems : (s.set k v).items = (k, v) :: eraseA s.items (s.lruList.getLast hne) := by
      simp only [shard_set_evict s k v hl hov, htail]
      simp [eraseA, hknet]
    have hLru : (s.set k v).lruList = k :: s.lruList.dropLast := by
      simp only [shard_set_evict s k v hl hov]
      exact List.dropLast_cons_of_ne_nil hne
    constructor
    · rw [hItems, List.length_cons,
        length_eraseA_of_mem s.items _ hwf.keysNodup htkeys]
      have hpos : 0 < s.items.length := by
        rw [← length_keysA]
        exact List.length_pos.mpr (List.ne_nil_of_mem htkeys)
      omega
    · exact hLru

/-- Witness for C3 on a capacity-one shard after one set, exercising the
size bound and one overflowing set. -/
theorem C3_witness :
    ((applyOps (Shard.empty 1) [ShardOp.setOp [0] [5]]).items.length : Int) ≤ 1 ∧
    ((applyOps (Shard.empty 1) [ShardOp.setOp [0] [5]]).set [1] [9]).lruList = [[1]] := by
  have h := C3_shard_invariants 1 (by norm_num) [ShardOp.setOp [0] [5]]
    (applyOps (Shard.empty 1) [ShardOp.setOp [0] [5]]) rfl
  refine ⟨h.1.1, ?_⟩
  have h2 := h.2 [1] [9] (by decide) (by decide)
  rw [h2.2]
  rfl

/-- C4: executeCommand answers a GET whose key is present with tag VALUE
carrying the stored bytes, answers a GET whose key is absent with tag
NOT_FOUND and empty payload, and never produces an OK response with a
non-empty payload. -/
theorem C4_executeCommand_get (c : Cache) (cmd : Command) :
    (cmd.type = CmdGet → ∀ v, (c.get cmd.key).1 = some v →
      (executeCommand c cmd).1 = Except.ok { type := RespValue, value := v }) ∧
    (cmd.type = CmdGet → (c.get cmd.key).1 = none →
      (executeCommand c cmd).1 = Except.ok { type := RespNotFound, value := [] }) ∧
    (∀ r, (executeCommand c cmd).1 = Except.ok r → r.type = RespOK → r.value = []) := by
  by_cases h1 : cmd.type = CmdSet
  · have hne2 : ¬ cmd.type = CmdGet := by
      rw [h1]
      decide
    refine ⟨fun hg => absurd hg hne2, fun hg => absurd hg hne2, ?_⟩
    intro r hr _
    simp only [executeCommand, if_pos h1] at hr
    injection hr with h
    rw [← h]
  · by_cases h2 : cmd.type = CmdGet
    · rcases hg : c.get cmd.key with ⟨o, c2⟩
      cases o with
      | none =>
        refine ⟨?_, ?_, ?_⟩
        · intro _ v hv
          simp at hv
        · intro _ _
          simp only [executeCommand, if_neg h1, if_pos h2, hg]
        · intro r hr hOK
          simp only [executeCommand, if_neg h1, if_pos h2, hg] at hr
          injection hr with h
          rw [← h]
      | some v0 =>
        refine ⟨?_, ?_, ?_⟩
        · intro _ v hv
          simp only at hv
          injection hv with h
          subst h
          simp only [executeCommand, if_neg h1, if_pos h2, hg]
        · intro _ hv
          simp at hv
        · intro r hr hOK
          simp only [executeCommand, if_neg h1, if_pos h2, hg] at hr
          injection hr with h
          rw [← h] at hOK
          simp [RespValue, RespOK] at hOK
    · have hne2 : ¬ cmd.type = CmdGet := h2
      by_cases h3 : cmd.type = CmdDel
      · refine ⟨fun hg => absurd hg hne2, fun hg => absurd hg hne2, ?_⟩
        intro r hr _
        simp only [executeCommand, if_neg h1, if_neg h2, if_pos h3] at hr
        injection hr with h
        rw [← h]
      · refine ⟨fun hg => absurd hg hne2, fun hg => absurd hg hne2, ?_⟩
        intro r hr _
        simp only [executeCommand, if_neg h1, if_neg h2, if_neg h3] at hr
        exact absurd hr (by simp)

/-- Witness for C4: a GET hit answers VALUE with the stored bytes and a
GET miss answers NOT_FOUND. -/
theorem C4_witness :
    (executeCommand ((NewWithConfig { ShardCount := 1, MaxItemsPerShard := 0 }).set [1] [7])
        { type := CmdGet, key := [1], value := [] }).1 =
      Except.ok { type := RespValue, value := [7] } ∧
    (executeCommand (NewWithConfig { ShardCount := 1, MaxItemsPerShard := 0 })
        { type := CmdGet, key := [1], value := [] }).1 =
      Except.ok { type := RespNotFound, value := [] } :=
  ⟨(C4_executeCommand_get _ _).1 rfl [7] (by decide),
    (C4_executeCommand_get _ _).2.1 rfl (by decide)⟩

/-- C9 counterexample: with one shard of capacity one, a Set on key
zero evicts the distinct resident key one and flips the result of its
Get from a hit to a miss, so an operation on one key does change the
result of a Get on another. -/
theorem C9_counterexample :
    ([0] : Key) ≠ [1] ∧
    ((((NewWithConfig { ShardCount := 1, MaxItemsPerShard := 1 }).set [1] [7]).set
        [0] [5]).get [1]).1 = none ∧
    (((NewWithConfig { ShardCount := 1, MaxItemsPerShard := 1 }).set [1] [7]).get
        [1]).1 = some [7] := by
  refine ⟨by decide, by decide, by decide⟩

/-- C9 (amended): for distinct keys, Get and Delete on one key never
change the result of Get on the other, and Set on one key leaves the
result of Get on the other unchanged provided that Set does not evict
the other key (the original claim fails exactly in the eviction case). -/
theorem C9_amended_isolation (c : Cache) (hwf : CacheWF c) (k1 k2 : Key)
    (hne : k1 ≠ k2) (v : Value) :
    (((c.get k1).2).get k2).1 = (c.get k2).1 ∧
    ((c.delete k1).get k2).1 = (c.get k2).1 ∧
    (c.setEvicts k1 k2 = false → ((c.set k1 v).get k2).1 = (c.get k2).1) := by
  have hne2 : k2 ≠ k1 := Ne.symm hne
  refine ⟨?_, ?_, ?_⟩
  · rw [cache_get_fst, cache_get_fst]
    by_cases hij : c.shardIndex k1 = c.shardIndex k2
    · rw [shardFor_cache_get_eq c hwf k1 k2 hij, shard_get_items,
        shardFor_eq_of_index_eq c k1 k2 hij]
    · rw [shardFor_cache_get_ne c k1 k2 hij]
  · rw [cache_get_fst, cache_get_fst]
    by_cases hij : c.shardIndex k1 = c.shardIndex k2
    · rw [shardFor_cache_delete_eq c hwf k1 k2 hij,
        lookup_shard_delete_ne _ k1 k2 hne2,
        shardFor_eq_of_index_eq c k1 k2 hij]
    · rw [shardFor_cache_delete_ne c k1 k2 hij]
  · intro hev
    have hsafe : ¬(lookupA (c.shardFor k1).items k1 = none ∧
        0 < (c.shardFor k1).maxItems ∧
        (c.shardFor k1).maxItems < ((k1 :: (c.shardFor k1).lruList).length : Int) ∧
        (k1 :: (c.shardFor k1).lruList).getLast
          (List.cons_ne_nil k1 (c.shardFor k1).lruList) = k2) := by
      rintro ⟨ha, hb, hc2, hd⟩
      have htrue : c.setEvicts k1 k2 = true := by
        simp only [Cache.setEvicts]
        rw [ha, hd]
        simp only [List.length_cons] at hc2
        push_cast at hc2
        simp [hb, hc2]
      rw [hev] at htrue
      exact Bool.false_ne_true htrue
    rw [cache_get_fst, cache_get_fst]
    by_cases hij : c.shardIndex k1 = c.shardIndex k2
    · rw [shardFor_cache_set_eq c hwf k1 k2 v hij,
        lookup_shard_set_ne _ k1 k2 v hne2 hsafe,
        shardFor_eq_of_index_eq c k1 k2 hij]
    · rw [shardFor_cache_set_ne c k1 k2 v hij]

/-- Witness for C9 on a two-shard cache where the Set does not evict. -/
theorem C9_witness :
    ((((NewWithConfig { ShardCount := 2, MaxItemsPerShard := 0 }).set [1] [7]).set
        [0] [5]).get [1]).1 =
      (((NewWithConfig { ShardCount := 2, MaxItemsPerShard := 0 }).set [1] [7]).get
        [1]).1 :=
  ((C9_amended_isolation _
      (cacheWF_set _ (cacheWF_newWithConfig _) [1] [7]) [0] [1]
      (by decide) [5]).2.2 (by decide))

/-- C5 counterexample: on the one-byte input, where the stream ends after
one header byte, ReadCommand returns the clean end-of-stream result -
the io.EOF sentinel, the very value returned for the empty input -
rather than a distinct truncated-frame error, because the Go code maps
io.ErrUnexpectedEOF on the header read to io.EOF. -/
theorem C5_counterexample :
    readCommand [1] = Except.error ReadError.eof ∧
    readCommand [] = Except.error ReadError.eof := by
  exact ⟨rfl, rfl⟩

/-- C5 (amended): whenever the input ends before the 9-byte header
completes - whether zero or up to eight header bytes were read -
ReadCommand reports the clean end-of-stream result; only a payload that
ends early yields the truncated-frame error. -/
theorem C5_amended_header_eof (input : List Nat) (h : input.length < 9) :
    readCommand input = Except.error ReadError.eof := by
  rcases input with _ | ⟨b0, _ | ⟨b1, _ | ⟨b2, _ | ⟨b3, _ | ⟨b4, _ | ⟨b5, _ |
    ⟨b6, _ | ⟨b7, _ | ⟨b8, rest⟩⟩⟩⟩⟩⟩⟩⟩⟩
  · rfl
  · rfl
  · rfl
  · rfl
  · rfl
  · rfl
  · rfl
  · rfl
  · rfl
  · simp only [List.length_cons] at h
    omega

/-- Witness for C5 (amended) at a concrete five-byte input. -/
theorem C5_witness :
    readCommand [1, 0, 0, 0, 3] = Except.error ReadError.eof :=
  C5_amended_header_eof [1, 0, 0, 0, 3] (by decide)

theorem be32_roundtrip (n : Nat) (h : n < 2 ^ 32) :
    n / 2 ^ 24 % 256 * 2 ^ 24 + n / 2 ^ 16 % 256 * 2 ^ 16 +
      n / 2 ^ 8 % 256 * 2 ^ 8 + n % 256 = n := by
  have h24 : (2 : Nat) ^ 24 = 16777216 := by norm_num
  have h16 : (2 : Nat) ^ 16 = 65536 := by norm_num
  have h8 : (2 : Nat) ^ 8 = 256 := by norm_num
  have h32 : (2 : Nat) ^ 32 = 4294967296 := by norm_num
  rw [h24, h16, h8]
  rw [h32] at h
  omega

theorem readCommand_eq (t k3 k2 k1 k0 v3 v2 v1 v0 kl vl : Nat) (rest : List Nat)
    (hkl : k3 * 2 ^ 24 + k2 * 2 ^ 16 + k1 * 2 ^ 8 + k0 = kl)
    (hvl : v3 * 2 ^ 24 + v2 * 2 ^ 16 + v1 * 2 ^ 8 + v0 = vl) :
    readCommand (t :: k3 :: k2 :: k1 :: k0 :: v3 :: v2 :: v1 :: v0 :: rest) =
      (if kl = 0 ∨ MaxKeySize < kl then Except.error (ReadError.invalidKeyLength kl)
       else if MaxValueSize < vl then Except.error (ReadError.invalidValueLength vl)
       else if 0 < vl ∧ (t = CmdGet ∨ t = CmdDel) then
         Except.error (ReadError.valueWithNonSet t)
       else if rest.length < (if t = CmdSet then kl + vl else kl) then
         Except.error ReadError.eofInPayload
       else if t = CmdSet ∨ t = CmdGet ∨ t = CmdDel then
         Except.ok (Command.mk t
           ((rest.take (if t = CmdSet then kl + vl else kl)).take kl)
           (if t = CmdSet then
             (rest.take (if t = CmdSet then kl + vl else kl)).drop kl else []),
           rest.drop (if t = CmdSet then kl + vl else kl))
       else Except.error (ReadError.unknownCommand t)) := by
  subst hkl hvl
  rfl

/-- C6: every frame with valLen = 0 and otherwise valid fields is
accepted - a GET or DEL decodes to the command with the transmitted key
and no value, and a SET with valLen = 0 decodes to a command with an
empty value - and the invalid-length error arises exactly when
keyLen = 0, keyLen exceeds MaxKeySize, or valLen exceeds MaxValueSize. -/
theorem C6_readCommand_lengths (t klen vlen : Nat) (key rest : List Nat)
    (hk32 : klen < 2 ^ 32) (hv32 : vlen < 2 ^ 32) :
    ((t = CmdGet ∨ t = CmdDel) → key.length = klen → 0 < klen → klen ≤ MaxKeySize →
      readCommand (t :: (be32enc klen ++ (be32enc 0 ++ (key ++ rest)))) =
        Except.ok (Command.mk t key [], rest)) ∧
    (key.length = klen → 0 < klen → klen ≤ MaxKeySize →
      readCommand (CmdSet :: (be32enc klen ++ (be32enc 0 ++ (key ++ rest)))) =
        Except.ok (Command.mk CmdSet key [], rest)) ∧
    (∀ suffix : List Nat,
      isInvalidLengthError (readCommand (t :: (be32enc klen ++ (be32enc vlen ++ suffix)))) ↔
      (klen = 0 ∨ MaxKeySize < klen ∨ MaxValueSize < vlen)) := by
  have hdk := be32_roundtrip klen hk32
  have hdv := be32_roundtrip vlen hv32
  refine ⟨?_, ?_, ?_⟩
  · intro ht hkey hk0 hkmax
    have ht1 : ¬(t = CmdSet) := by
      rcases ht with h | h <;> rw [h] <;> decide
    simp only [be32enc, List.cons_append, List.nil_append, Nat.zero_div, Nat.zero_mod]
    rw [readCommand_eq t _ _ _ _ 0 0 0 0 klen 0 (key ++ rest) hdk (by norm_num)]
    have hc1 : ¬(klen = 0 ∨ MaxKeySize < klen) := by
      push_neg
      omega
    have hc2 : ¬(MaxValueSize < 0) := by omega
    have hc3 : ¬(0 < 0 ∧ (t = CmdGet ∨ t = CmdDel)) := by simp
    rw [if_neg hc1, if_neg hc2, if_neg hc3]
    simp only [if_neg ht1]
    have hc4 : ¬((key ++ rest).length < klen) := by
      rw [List.length_append]
      omega
    rw [if_neg hc4, if_pos (Or.inr ht)]
    rw [List.take_left' hkey, List.drop_left' hkey, ← hkey, List.take_length]
  · intro hkey hk0 hkmax
    simp only [be32enc, List.cons_append, List.nil_append, Nat.zero_div, Nat.zero_mod]
    rw [readCommand_eq CmdSet _ _ _ _ 0 0 0 0 klen 0 (key ++ rest) hdk (by norm_num)]
    have hc1 : ¬(klen = 0 ∨ MaxKeySize < klen) := by
      push_neg
      omega
    have hc2 : ¬(MaxValueSize < 0) := by omega
    have hc3 : ¬(0 < 0 ∧ (CmdSet = CmdGet ∨ CmdSet = CmdDel)) := by simp
    rw [if_neg hc1, if_neg hc2, if_neg hc3]
    have hneed : (if CmdSet = CmdSet then klen + 0 else klen) = klen := by
      rw [if_pos rfl]
      exact Nat.add_zero klen
    rw [hneed]
    have hc4 : ¬((key ++ rest).length < klen) := by
      rw [List.length_append]
      omega
    rw [if_neg hc4, if_pos (Or.inl rfl)]
    have hval : ∀ x y : List Nat, (if CmdSet = CmdSet then x else y) = x :=
      fun x y => if_pos rfl
    rw [hval]
    rw [List.take_left' hkey, List.drop_left' hkey, ← hkey, List.take_length,
      List.drop_length]
  · intro suffix
    simp only [be32enc, List.cons_append, List.nil_append]
    rw [readCommand_eq t _ _ _ _ _ _ _ _ klen vlen suffix hdk hdv]
    constructor
    · intro hinv
      by_cases hc1 : klen = 0 ∨ MaxKeySize < klen
      · exact hc1.imp id (fun h => Or.inl h)
      · by_cases hc2 : MaxValueSize < vlen
        · exact Or.inr (Or.inr hc2)
        · exfalso
          rw [if_neg hc1, if_neg hc2] at hinv
          by_cases hc3 : 0 < vlen ∧ (t = CmdGet ∨ t = CmdDel)
          · rw [if_pos hc3] at hinv
            exact hinv
          · rw [if_neg hc3] at hinv
            by_cases hc4 : suffix.length < (if t = CmdSet then klen + vlen else klen)
            · rw [if_pos hc4] at hinv
              exact hinv
            · rw [if_neg hc4] at hinv
              by_cases hc5 : t = CmdSet ∨ t = CmdGet ∨ t = CmdDel
              · rw [if_pos hc5] at hinv
                exact hinv
              · rw [if_neg hc5] at hinv
                exact hinv
    · intro hcond
      by_cases hc1 : klen = 0 ∨ MaxKeySize < klen
      · rw [if_pos hc1]
        trivial
      · have hc2 : MaxValueSize < vlen := by
          rcases hcond with h | h | h
          · exact absurd (Or.inl h) hc1
          · exact absurd (Or.inr h) hc1
          · exact h
        rw [if_neg hc1, if_pos hc2]
        trivial

/-- Witness for C6: a GET frame and a SET frame with valLen = 0 both
decode, and the zero key length is reported as invalid-length. -/
theorem C6_witness :
    readCommand (CmdGet :: (be32enc 3 ++ (be32enc 0 ++ ([102, 111, 111] ++ [])))) =
      Except.ok (Command.mk CmdGet [102, 111, 111] [], []) ∧
    readCommand (CmdSet :: (be32enc 3 ++ (be32enc 0 ++ ([102, 111, 111] ++ [])))) =
      Except.ok (Command.mk CmdSet [102, 111, 111] [], []) ∧
    isInvalidLengthError (readCommand (CmdGet :: (be32enc 0 ++ (be32enc 0 ++ ([] ++ []))))) := by
  have h := C6_readCommand_lengths CmdGet 3 0 [102, 111, 111] [] (by decide) (by decide)
  have h2 := C6_readCommand_lengths CmdSet 3 0 [102, 111, 111] [] (by decide) (by decide)
  have h3 := C6_readCommand_lengths CmdGet 0 0 [] [] (by decide) (by decide)
  exact ⟨h.1 (Or.inl rfl) rfl (by decide) (by decide),
    h2.2.1 rfl (by decide) (by decide),
    (h3.2.2 ([] ++ [])).mpr (Or.inl rfl)⟩

theorem writeResponse_eq_emit (resp : Response)
    (h1 : ¬ MaxValueSize < resp.value.length % 2 ^ 32)
    (h2 : ¬((resp.type = RespOK ∨ resp.type = RespNotFound) ∧
      resp.value.length % 2 ^ 32 ≠ 0)) :
    writeResponse resp =
      (resp.type :: (be32enc (resp.value.length % 2 ^ 32) ++
        resp.value.take (resp.value.length % 2 ^ 32)), none) := by
  simp only [writeResponse, if_neg h1, if_neg h2]

theorem writeResponse_wrap_hole (v : List Nat) (hlen : v.length = 2 ^ 32) :
    (writeResponse { type := RespValue, value := v }).2 = none ∧
    ((writeResponse { type := RespValue, value := v }).1).head? = some RespValue := by
  have hmod : ({ type := RespValue, value := v } : Response).value.length % 2 ^ 32 = 0 := by
    show v.length % 2 ^ 32 = 0
    rw [hlen]
    exact Nat.mod_self _
  have h1 : ¬ MaxValueSize <
      ({ type := RespValue, value := v } : Response).value.length % 2 ^ 32 := by
    rw [hmod]
    decide
  have h2 : ¬((({ type := RespValue, value := v } : Response).type = RespOK ∨
      ({ type := RespValue, value := v } : Response).type = RespNotFound) ∧
      ({ type := RespValue, value := v } : Response).value.length % 2 ^ 32 ≠ 0) := by
    rintro ⟨_, hb⟩
    exact hb hmod
  have he := writeResponse_eq_emit { type := RespValue, value := v } h1 h2
  rw [he]
  exact ⟨rfl, rfl⟩

/-- C7 counterexample: a VALUE response whose payload has length 2^32 -
far above MaxValueSize - is not replaced by an ERROR frame: the Go
uint32 conversion wraps the length to 0, both guards pass, and the
response is emitted with tag VALUE, a zero length field and no payload
bytes, with no error returned. -/
theorem C7_counterexample :
    MaxValueSize < (List.replicate (2 ^ 32) (0 : Nat)).length ∧
    (writeResponse { type := RespValue, value := List.replicate (2 ^ 32) (0 : Nat) }).2 =
      none ∧
    ((writeResponse { type := RespValue, value := List.replicate (2 ^ 32) (0 : Nat) }).1).head? =
      some RespValue := by
  have h := writeResponse_wrap_hole (List.replicate (2 ^ 32) (0 : Nat))
    (List.length_replicate _ _)
  refine ⟨?_, h.1, h.2⟩
  rw [List.length_replicate]
  decide

/-- C7 (amended): with valLen the payload length reduced mod 2^32 (the
Go uint32 conversion), WriteResponse replaces a response whose valLen
exceeds MaxValueSize, or whose tag is OK or NOT_FOUND with valLen
non-zero, by an ERROR frame (tag 2) and reports an error; every other
response is emitted as its 5-byte header carrying valLen big-endian
followed by the first valLen payload bytes - which, whenever the
payload length is below 2^32, is exactly the header followed by the
whole payload, with no error. -/
theorem C7_writeResponse_wrapped (resp : Response) :
    (MaxValueSize < resp.value.length % 2 ^ 32 ∨
        ((resp.type = RespOK ∨ resp.type = RespNotFound) ∧
          resp.value.length % 2 ^ 32 ≠ 0) →
      (writeResponse resp).2.isSome = true ∧
      ∃ msg, (writeResponse resp).1 = respFrame RespError msg) ∧
    (¬(MaxValueSize < resp.value.length % 2 ^ 32 ∨
        ((resp.type = RespOK ∨ resp.type = RespNotFound) ∧
          resp.value.length % 2 ^ 32 ≠ 0)) →
      writeResponse resp =
        (resp.type :: (be32enc (resp.value.length % 2 ^ 32) ++
          resp.value.take (resp.value.length % 2 ^ 32)), none)) ∧
    (resp.value.length < 2 ^ 32 →
      ¬(MaxValueSize < resp.value.length ∨
        ((resp.type = RespOK ∨ resp.type = RespNotFound) ∧ resp.value.length ≠ 0)) →
      writeResponse resp = (respFrame resp.type resp.value, none)) := by
  by_cases h1 : MaxValueSize < resp.value.length % 2 ^ 32
  · refine ⟨?_, ?_, ?_⟩
    · intro _
      refine ⟨?_, ?_⟩
      · simp only [writeResponse, if_pos h1]
        rfl
      · refine ⟨if MaxValueSize < (strBytes errMsgOversize).length then
          (strBytes errMsgOversize).take MaxValueSize else strBytes errMsgOversize, ?_⟩
        simp only [writeResponse, if_pos h1]
    · intro hc
      exact absurd (Or.inl h1) hc
    · intro hlt hc
      rw [Nat.mod_eq_of_lt hlt] at h1
      exact absurd (Or.inl h1) hc
  · by_cases h2 : (resp.type = RespOK ∨ resp.type = RespNotFound) ∧
        resp.value.length % 2 ^ 32 ≠ 0
    · refine ⟨?_, ?_, ?_⟩
      · intro _
        refine ⟨?_, ?_⟩
        · simp only [writeResponse, if_neg h1, if_pos h2]
          rfl
        · refine ⟨strBytes ("internal: unexpected value data with response type " ++
            toString resp.type), ?_⟩
          simp only [writeResponse, if_neg h1, if_pos h2]
      · intro hc
        exact absurd (Or.inr h2) hc
      · intro hlt hc
        rw [Nat.mod_eq_of_lt hlt] at h2
        exact absurd (Or.inr h2) hc
    · refine ⟨?_, ?_, ?_⟩
      · intro hbad
        rcases hbad with hb | hb
        · exact absurd hb h1
        · exact absurd hb h2
      · intro _
        simp only [writeResponse, if_neg h1, if_neg h2]
      · intro hlt _
        have hmod : resp.value.length % 2 ^ 32 = resp.value.length :=
          Nat.mod_eq_of_lt hlt
        simp only [writeResponse, if_neg h1, if_neg h2, respFrame]
        rw [hmod, List.take_length]

/-- Witness for C7 (amended): an OK response with a payload byte is
replaced by an ERROR frame, and a VALUE response within bounds is
emitted verbatim. -/
theorem C7_witness :
    ((writeResponse { type := RespOK, value := [7] }).2.isSome = true ∧
      ∃ msg, (writeResponse { type := RespOK, value := [7] }).1 = respFrame RespError msg) ∧
    writeResponse { type := RespValue, value := [1, 2] } =
      (respFrame RespValue [1, 2], none) :=
  ⟨(C7_writeResponse_wrapped { type := RespOK, value := [7] }).1
      (Or.inr ⟨Or.inl rfl, by decide⟩),
    (C7_writeResponse_wrapped { type := RespValue, value := [1, 2] }).2.2
      (by decide) (by decide)⟩

/-- Bridge between the Go power-of-two test on the Int shard count and
the mathematical property. -/
theorem goPow2_iff (n : Int) :
    (0 < n ∧ n.toNat &&& (n.toNat - 1) = 0) ↔ ∃ k : Nat, n = 2 ^ k := by
  constructor
  · rintro ⟨hpos, hand⟩
    obtain ⟨k, hk⟩ := pow2_of_and_pred n.toNat (by omega) hand
    refine ⟨k, ?_⟩
    have : (n.toNat : Int) = n := Int.toNat_of_nonneg (by omega)
    rw [← this, hk]
    push_cast
    rfl
  · rintro ⟨k, rfl⟩
    have hpos : (0 : Int) < 2 ^ k := by positivity
    refine ⟨hpos, ?_⟩
    have : ((2 : Int) ^ k).toNat = 2 ^ k := by
      rw [show ((2 : Int) ^ k) = ((2 ^ k : Nat) : Int) by push_cast; rfl]
      exact Int.toNat_natCast _
    rw [this]
    exact pow_and_pred_eq_zero k

/-- C8: the constructor falls back to 256 shards when ShardCount is not
a positive power of two and uses ShardCount otherwise, coerces a
negative MaxItemsPerShard to 0 and keeps a non-negative one, and
allocates every shard eagerly with empty map and empty recency list. -/
theorem C8_newWithConfig (cfg : Config) :
    ((¬ ∃ k : Nat, cfg.ShardCount = 2 ^ k) →
      (NewWithConfig cfg).shards.length = 256) ∧
    ((∃ k : Nat, cfg.ShardCount = 2 ^ k) →
      (NewWithConfig cfg).shards.length = cfg.ShardCount.toNat) ∧
    (cfg.MaxItemsPerShard < 0 →
      ∀ s ∈ (NewWithConfig cfg).shards, s.maxItems = 0) ∧
    (0 ≤ cfg.MaxItemsPerShard →
      ∀ s ∈ (NewWithConfig cfg).shards, s.maxItems = cfg.MaxItemsPerShard) ∧
    (∀ s ∈ (NewWithConfig cfg).shards, s.items = [] ∧ s.lruList = []) := by
  have hmem : ∀ s ∈ (NewWithConfig cfg).shards,
      s = Shard.empty (if cfg.MaxItemsPerShard < 0 then 0 else cfg.MaxItemsPerShard) := by
    intro s hs
    unfold NewWithConfig at hs
    by_cases hv : 0 < cfg.ShardCount ∧
        cfg.ShardCount.toNat &&& (cfg.ShardCount.toNat - 1) = 0
    · simp only [if_pos hv] at hs
      exact List.eq_of_mem_replicate hs
    · simp only [if_neg hv] at hs
      exact List.eq_of_mem_replicate hs
  refine ⟨?_, ?_, ?_, ?_, ?_⟩
  · intro hnp
    have hv : ¬(0 < cfg.ShardCount ∧
        cfg.ShardCount.toNat &&& (cfg.ShardCount.toNat - 1) = 0) := by
      intro hc
      exact hnp ((goPow2_iff cfg.ShardCount).mp hc)
    unfold NewWithConfig
    simp only [if_neg hv]
    exact List.length_replicate 256 _
  · intro hp
    have hv : 0 < cfg.ShardCount ∧
        cfg.ShardCount.toNat &&& (cfg.ShardCount.toNat - 1) = 0 :=
      (goPow2_iff cfg.ShardCount).mpr hp
    unfold NewWithConfig
    simp only [if_pos hv]
    exact List.length_replicate _ _
  · intro hneg s hs
    rw [hmem s hs]
    simp only [Shard.empty, if_pos hneg]
  · intro hpos s hs
    rw [hmem s hs]
    have : ¬(cfg.MaxItemsPerShard < 0) := by omega
    simp only [Shard.empty, if_neg this]
  · intro s hs
    rw [hmem s hs]
    exact ⟨rfl, rfl⟩

/-- Witness for C8: an invalid shard count of zero falls back to 256
shards with the negative capacity coerced to zero, and a count of four
is used as given. -/
theorem C8_witness :
    (NewWithConfig { ShardCount := 0, MaxItemsPerShard := -5 }).shards.length = 256 ∧
    (NewWithConfig { ShardCount := 4, MaxItemsPerShard := 7 }).shards.length = 4 ∧
    (∀ s ∈ (NewWithConfig { ShardCount := 0, MaxItemsPerShard := -5 }).shards,
      s.maxItems = 0) := by
  refine ⟨?_, ?_, ?_⟩
  · refine (C8_newWithConfig _).1 ?_
    rintro ⟨k, hk⟩
    have hk2 : (0 : Int) = 2 ^ k := hk
    have : (0 : Int) < 2 ^ k := by positivity
    omega
  · have h := (C8_newWithConfig
      { ShardCount := 4, MaxItemsPerShard := 7 }).2.1 ⟨2, by norm_num⟩
    simpa using h
  · exact (C8_newWithConfig _).2.2.1 (by norm_num)

end Zerocache
